import Mathlib

/-!
Verification of the content-extraction pipeline of `screenshot_automation.py`
(class `APClassroomOCR`).

The embedding below translates, from the source:
  * the answer clean-and-deduplicate loop of the in-page script evaluated by
    `extract_question_and_answers` (source lines 132-151);
  * the Python-side validation gate, duplicate detection, and formatting of
    `extract_question_and_answers` (source lines 209-245);
  * the main loop `run_automation` (source lines 247-306) and the output
    writer `save_results` (source lines 308-321).

Modelling conventions:
  * The live DOM, Selenium and the page script evaluation are external: each
    iteration of the loop is fed an `Except String PageData` value, where
    `Except.error` models an exception escaping `driver.execute_script` (or
    malformed script output), and `Except.ok` carries the `question` and
    `answers` fields of the structured value the script returned.
  * Python's `hash(q[:100])` is modelled by the 100-character prefix itself
    (`stemKey`): equal prefixes give equal hash values, which is the only
    property the code's duplicate comparison relies on.  The stored state
    `last_question_hash` is `Option String`, `none` standing for Python's
    initial `None`.
  * Machine side effects (clicking, screenshots) are recorded in an explicit
    event trace so that theorems can speak about which external actions a run
    performs.  The source never calls any screenshot or OCR routine inside
    `run_automation`, so no step of the model emits those events.
-/

/-- The `question` / `answers` fields of the structured value returned by the
in-page script (the script itself runs against the live DOM, which is
external; its answer post-processing is modelled by `scriptAnswers`). -/
structure PageData where
  question : String
  answers : List String
deriving Repr, DecidableEq

/-! ### In-page script: answer cleaning and deduplication (source lines 132-151) -/

/-- Whitespace class of the JavaScript regexes (`\s`) restricted to the
characters that occur in practice. -/
def isJsWS (c : Char) : Bool :=
  c == ' ' || c == '\t' || c == '\n' || c == '\r'

/-- Circled-letter bullets matched by the script's first replacement,
`replace(/^[ⒶⒷⒸⒹⒺ]\s*/g, "")`. -/
def isCircledLetter (c : Char) : Bool :=
  c == 'Ⓐ' || c == 'Ⓑ' || c == 'Ⓒ' || c == 'Ⓓ' || c == 'Ⓔ'

/-- Is the character one of the enumerator letters `A`-`E`. -/
def isUpperAE (c : Char) : Bool :=
  c == 'A' || c == 'B' || c == 'C' || c == 'D' || c == 'E'

/-- `replace(/^[ⒶⒷⒸⒹⒺ]\s*/g, "")`: drop one leading circled letter and the
whitespace following it. -/
def stripCircledLead (l : List Char) : List Char :=
  match l with
  | c :: rest => if isCircledLetter c then rest.dropWhile isJsWS else l
  | [] => []

/-- `replace(/^\([A-E]\)\s*/g, "")`: drop a leading "(X)" enumerator and the
whitespace following it. -/
def stripParenLead (l : List Char) : List Char :=
  match l with
  | '(' :: x :: ')' :: rest => if isUpperAE x then rest.dropWhile isJsWS else l
  | _ => l

/-- `replace(/^[A-E]\s+/g, "")`: drop a leading bare enumerator letter that is
followed by at least one whitespace character, together with that whitespace. -/
def stripLetterLead (l : List Char) : List Char :=
  match l with
  | x :: c :: rest =>
    if isUpperAE x && isJsWS c then rest.dropWhile isJsWS else l
  | _ => l

/-- JavaScript `String.prototype.trim`. -/
def jsTrim (l : List Char) : List Char :=
  ((l.dropWhile isJsWS).reverse.dropWhile isJsWS).reverse

/-- The cleaning applied to one gathered answer text (source lines 135-141). -/
def jsCleanAnswer (t : String) : String :=
  ⟨jsTrim (stripLetterLead (stripParenLead (stripCircledLead t.data)))⟩

/-- The clean-and-deduplicate loop over the gathered answer elements (source
lines 133-148): an answer is appended only if its cleaned text is longer than
5 characters and has not been seen before.  The `seenTexts` set coincides with
the accumulated output, so membership in the accumulator models it. -/
def collectAnswersAux : List String → List String → List String
  | [], acc => acc
  | t :: rest, acc =>
    let c := jsCleanAnswer t
    if 5 < c.length ∧ c ∉ acc then collectAnswersAux rest (acc ++ [c])
    else collectAnswersAux rest acc

/-- `result.answers` as produced by the script from the raw texts of the
gathered answer elements, including the final `slice(0, 5)` (source line
151). -/
def scriptAnswers (items : List String) : List String :=
  (collectAnswersAux items []).take 5

/-! ### Python side of `extract_question_and_answers` (source lines 209-245) -/

/-- Python `data["question"][:100]`, the text whose hash is compared for
duplicate detection (source line 224).  The hash itself is modelled by this
prefix, see the header comment. -/
def stemKey (q : String) : String :=
  ⟨q.data.take 100⟩

/-- The letter labels `["A", "B", "C", "D", "E"]` (source line 235). -/
def answerLetters : List String :=
  ["A", "B", "C", "D", "E"]

/-- The accumulation loop `for idx, ans in enumerate(data["answers"][:5]):
formatted += f"{letters[idx]}. {ans}\n"` (source lines 236-237). -/
def addAnswerLines : Nat → List String → String → String
  | _, [], acc => acc
  | idx, a :: rest, acc =>
    addAnswerLines (idx + 1) rest (acc ++ answerLetters.getD idx "" ++ ". " ++ a ++ "\n")

/-- The formatted output string built at source lines 232-237: the question,
a blank line, then the letter-labelled answers (truncated to five). -/
def formatResult (q : String) (answers : List String) : String :=
  addAnswerLines 0 (answers.take 5) (q ++ "\n\n")

/-- The Python post-processing of the script's value (source lines 214-239):
validation gate, duplicate detection against `last_question_hash`, state
update and formatting.  Returns the method's result together with the new
`last_question_hash` state. -/
def extract_post (lastHash : Option String) (question : String)
    (answers : List String) : Option String × Option String :=
  if question = "" ∨ question.length < 20 then (none, lastHash)
  else if answers = [] ∨ answers.length < 2 then (none, lastHash)
  else if lastHash = some (stemKey question) then (none, lastHash)
  else (some (formatResult question answers), some (stemKey question))

/-- The whole method `extract_question_and_answers`: the `try` body evaluates
the in-page script; an exception anywhere in the body is caught by the
`except` clause at source lines 241-245 and turned into `None`, leaving
`last_question_hash` untouched. -/
def extract_question_and_answers (lastHash : Option String)
    (page : Except String PageData) : Option String × Option String :=
  match page with
  | Except.error _ => (none, lastHash)
  | Except.ok d => extract_post lastHash d.question d.answers

/-! ### The main loop `run_automation` (source lines 247-306) -/

/-- One entry of `self.ocr_results` (source lines 277-280 and 289-292). -/
structure QARecord where
  question_num : Nat
  text : String
deriving Repr, DecidableEq

/-- External actions a run performs, recorded as an explicit trace. -/
inductive Event where
  | extractCall : Nat → Event
  | screenshotCapture : Event
  | ocrRecognize : Event
  | clickNext : Nat → Event
deriving Repr, DecidableEq

/-- Is the event a click on the "next" control. -/
def Event.isClick : Event → Bool
  | Event.clickNext _ => true
  | Event.extractCall _ => false
  | Event.screenshotCapture => false
  | Event.ocrRecognize => false

/-- The mutable state of an `APClassroomOCR` instance during `run_automation`,
plus the trace of external actions. -/
structure RunState where
  ocr_results : List QARecord
  last_question_hash : Option String
  trace : List Event
deriving Repr, DecidableEq

/-- The placeholder recorded when extraction fails (source line 291). -/
def placeholderText (n : Nat) : String :=
  "[Unable to extract question " ++ toString n ++ " - please check manually]\n\n"

/-- The record appended for iteration `i` (0-based): the extracted text on
success (source lines 277-280), the placeholder on failure (source lines
289-292); `question_num` is `i + 1` in both cases. -/
def mkRecord (i : Nat) (r : Option String) : QARecord :=
  match r with
  | some t => ⟨i + 1, t⟩
  | none => ⟨i + 1, placeholderText (i + 1)⟩

/-- The bookkeeping of one loop iteration before the click: run the
extraction, append exactly one record, store the new duplicate-detection
state, note the extraction in the trace. -/
def recordStep (i : Nat) (st : RunState)
    (er : Option String × Option String) : RunState :=
  ⟨st.ocr_results ++ [mkRecord i er.1], er.2, st.trace ++ [Event.extractCall i]⟩

/-- The click attempt of iteration `i`: it only adds the click to the trace
(the browser's reaction is external; whether the click succeeded is given by
the `clickOk` oracle). -/
def clickStep (i : Nat) (st : RunState) : RunState :=
  ⟨st.ocr_results, st.last_question_hash, st.trace ++ [Event.clickNext i]⟩

/-- The loop body of `run_automation`, iterating over the remaining 0-based
iteration indices (`for i in range(max_clicks)`).  After recording, iteration
`i` attempts the "next" click only when it is not the last iteration (source
line 295); a failed click executes `break` (source line 306), abandoning the
remaining indices. -/
def runSteps (pages : Nat → Except String PageData) (clickOk : Nat → Bool) :
    List Nat → RunState → RunState
  | [], st => st
  | i :: rest, st =>
    let st1 := recordStep i st
      (extract_question_and_answers st.last_question_hash (pages i))
    match rest with
    | [] => st1
    | _ :: _ =>
      if clickOk i then runSteps pages clickOk rest (clickStep i st1)
      else clickStep i st1

/-- `run_automation(max_clicks, ...)` on a fresh instance: `ocr_results` is
empty and `last_question_hash` is `None` (source lines 50-51). -/
def run_automation (N : Nat) (pages : Nat → Except String PageData)
    (clickOk : Nat → Bool) : RunState :=
  runSteps pages clickOk (List.range N) ⟨[], none, []⟩

/-! ### The output writer `save_results` (source lines 308-321) -/

/-- A rule line of 80 copies of a character (`"=" * 80`, `"-" * 80`). -/
def lineRule (c : Char) : String :=
  ⟨List.replicate 80 c⟩

/-- The fixed banner written first (source lines 311-313). -/
def saveBanner : String :=
  lineRule '=' ++ "\n" ++ "AP CLASSROOM - QUESTIONS & ANSWERS\n" ++ lineRule '=' ++ "\n\n"

/-- Concatenation of a list of strings (used to state what the sequence of
`f.write` calls produces). -/
def joinStrings : List String → String
  | [] => ""
  | s :: rest => s ++ joinStrings rest

/-- The block written for one record (source lines 316-319). -/
def recordBlock (r : QARecord) : String :=
  "QUESTION " ++ toString r.question_num ++ "\n" ++ lineRule '-' ++ "\n" ++ r.text ++ "\n"

/-- The full text `save_results` writes to the output file. -/
def save_results (results : List QARecord) : String :=
  saveBanner ++ joinStrings (results.map recordBlock)

/-! ### TextNormalizer

Modelled from the spec: the repository source under `src/` contains no
text-cleaning routine for recognized text (the recognition fallback itself is
absent from `screenshot_automation.py`), so `TextNormalizer.clean` is built
from the rules of spec section 4.4, applied in the listed order: strip
decorative/circled bullet glyphs; strip a leading non-word prefix in each
line; collapse runs of in-line whitespace to one space; remove whitespace
immediately before punctuation; map a vertical bar to the letter `I` only
when immediately followed by a lowercase letter; drop lines having fewer than
a minimum number of word-tokens (alphabetic runs of length at least 2) that
are also shorter than a minimum character length; trim each line.  The two
tunable minima are fixed at 2 tokens and 10 characters.  The line filter is
applied to fully cleaned (trimmed) lines, the reading under which the spec's
stated idempotence contract holds. -/

namespace TextNormalizer

/-- Decorative and circled bullet glyphs stripped by the first rule. -/
def isBullet (c : Char) : Bool :=
  c == 'Ⓐ' || c == 'Ⓑ' || c == 'Ⓒ' || c == 'Ⓓ' || c == 'Ⓔ' ||
  c == '©' || c == '®' || c == '•' || c == '●' || c == '○' || c == '◦'

/-- Word constituent characters (letters and digits). -/
def isWordChar (c : Char) : Bool :=
  c.isAlphanum

/-- In-line whitespace (space and tab; line breaks delimit lines). -/
def isBlankChar (c : Char) : Bool :=
  c == ' ' || c == '\t'

/-- Punctuation whose preceding whitespace is removed. -/
def isPunctChar (c : Char) : Bool :=
  c == '.' || c == ',' || c == ';' || c == ':' || c == '!' || c == '?'

/-- Rule 1: strip every decorative bullet glyph. -/
def stripBullets (l : List Char) : List Char :=
  l.filter (fun c => !isBullet c)

/-- Rule 2: strip the leading non-word prefix of a line. -/
def dropLead (l : List Char) : List Char :=
  l.dropWhile (fun c => !isWordChar c)

/-- Worker for rule 3; the flag records whether the previous character was
whitespace (in which case further whitespace is absorbed into the single
space already emitted). -/
def collapseGo : Bool → List Char → List Char
  | _, [] => []
  | prevWS, c :: rest =>
    if isBlankChar c then
      if prevWS then collapseGo true rest else ' ' :: collapseGo true rest
    else c :: collapseGo false rest

/-- Rule 3: collapse every run of in-line whitespace to a single space. -/
def collapseWS (l : List Char) : List Char :=
  collapseGo false l

/-- Rule 4: remove whitespace immediately preceding punctuation. -/
def dropWSBeforePunct : List Char → List Char
  | [] => []
  | [c] => [c]
  | c :: d :: rest =>
    if isBlankChar c && isPunctChar d then dropWSBeforePunct (d :: rest)
    else c :: dropWSBeforePunct (d :: rest)

/-- Rule 5: the context-guarded misrecognition substitution, mapping a
vertical bar to `I` only when the next character is a lowercase letter. -/
def barToI : List Char → List Char
  | [] => []
  | [c] => [c]
  | c :: d :: rest =>
    (if c == '|' && d.isLower then 'I' else c) :: barToI (d :: rest)

/-- Remove trailing in-line whitespace. -/
def dropTrail : List Char → List Char
  | [] => []
  | c :: rest =>
    match dropTrail rest with
    | [] => if isBlankChar c then [] else [c]
    | r => c :: r

/-- Rule 7: trim the line at both ends. -/
def trimLine (l : List Char) : List Char :=
  dropTrail (l.dropWhile isBlankChar)

/-- The per-line cleaning pipeline, rules 1-5 and 7 in order. -/
def cleanLine (l : List Char) : List Char :=
  trimLine (barToI (dropWSBeforePunct (collapseWS (dropLead (stripBullets l)))))

/-- Worker for rule 6: count of word-tokens (maximal alphabetic runs of
length at least 2); the accumulator holds the length of the current run. -/
def wordTokensGo : Nat → List Char → Nat
  | run, [] => if 2 ≤ run then 1 else 0
  | run, c :: rest =>
    if c.isAlpha then wordTokensGo (run + 1) rest
    else (if 2 ≤ run then 1 else 0) + wordTokensGo 0 rest

/-- Number of word-tokens in a line. -/
def wordTokens (l : List Char) : Nat :=
  wordTokensGo 0 l

/-- Rule 6: a line is kept unless it has fewer than 2 word-tokens and is
also shorter than 10 characters. -/
def keepLine (l : List Char) : Bool :=
  !(decide (wordTokens l < 2) && decide (l.length < 10))

/-- Split a character sequence into its lines. -/
def splitLines : List Char → List (List Char)
  | [] => [[]]
  | c :: rest =>
    if c = '\n' then [] :: splitLines rest
    else
      match splitLines rest with
      | [] => [[c]]
      | l :: ls => (c :: l) :: ls

/-- Rejoin lines with newline separators. -/
def joinLines : List (List Char) → List Char
  | [] => []
  | [l] => l
  | l :: ls => l ++ '\n' :: joinLines ls

/-- The whole normalizer on a character sequence: clean each line, drop noise
lines, rejoin. -/
def cleanChars (text : List Char) : List Char :=
  joinLines (((splitLines text).map cleanLine).filter keepLine)

/-- `clean(text)`: the string-level entry point. -/
def clean (s : String) : String :=
  ⟨cleanChars s.data⟩

/-! Invariant predicates used to prove that `clean` is idempotent: they
characterize the image of the per-line pipeline, each stage being the
identity on strings that already satisfy its invariant. -/

/-- Is the head of the list a lowercase letter (the look-ahead of rule 5). -/
def headLowerB : List Char → Bool
  | [] => false
  | d :: _ => d.isLower

/-- Adjacent-pair violation for rule 3: two consecutive whitespace marks. -/
def badWW (c d : Char) : Bool :=
  isBlankChar c && isBlankChar d

/-- Adjacent-pair violation for rule 4: whitespace before punctuation. -/
def badWP (c d : Char) : Bool :=
  isBlankChar c && isPunctChar d

/-- Adjacent-pair violation for rule 5: a bar before a lowercase letter. -/
def badBar (c d : Char) : Bool :=
  c == '|' && d.isLower

/-- `c` paired with the head of `l` is not a violation. -/
def HeadSafe (bad : Char → Char → Bool) (c : Char) : List Char → Prop
  | [] => True
  | d :: _ => bad c d = false

/-- No adjacent pair of the list is a violation. -/
def PairsOK (bad : Char → Char → Bool) : List Char → Prop
  | c :: d :: rest => bad c d = false ∧ PairsOK bad (d :: rest)
  | _ => True

/-- No decorative bullet glyph occurs in the list. -/
def NoBullet (l : List Char) : Prop :=
  ∀ c ∈ l, isBullet c = false

/-- Every in-line whitespace character of the list is a plain space. -/
def BlankIsSpace (l : List Char) : Prop :=
  ∀ c ∈ l, isBlankChar c = true → c = ' '

/-- The list is empty or starts with a word character. -/
def HeadWord : List Char → Prop
  | [] => True
  | c :: _ => isWordChar c = true

/-- The list is empty or does not start with whitespace. -/
def HeadNotBlank : List Char → Prop
  | [] => True
  | c :: _ => isBlankChar c = false

/-- The list is empty or does not end with whitespace. -/
def LastNotBlank : List Char → Prop
  | [] => True
  | [c] => isBlankChar c = false
  | _ :: rest => LastNotBlank rest

end TextNormalizer

/-! ### Concrete inputs used by witnesses -/

/-- A stem of length 30, passing the validation gate. -/
def wQ : String := "What is the capital of France?"

/-- Two well-formed answer options. -/
def wAns : List String := ["option alpha", "option beta"]

/-- Two raw answer-element texts whose cleaned forms are kept by the script. -/
def wItems : List String := ["Ⓐ London", "Ⓑ Berlin"]

/-- A stem of 129 characters whose first 100 characters are all `a`. -/
def longStemA : String := ⟨List.replicate 100 'a'⟩ ++ " but the ending differs here?"

/-- A different stem agreeing with `longStemA` on its first 100 characters. -/
def longStemB : String := ⟨List.replicate 100 'a'⟩ ++ " with a different second half?"

/-- Page oracle for the navigation-failure witness. -/
def wPages : Nat → Except String PageData := fun _ => Except.error "stale page"

/-- Click oracle that fails on the very first "next" click. -/
def wClicksFail : Nat → Bool := fun _ => false

/-! ## Helper lemmas -/

theorem str_data_append (a b : String) : (a ++ b).data = a.data ++ b.data := by
  cases a; cases b; rfl

theorem str_append_assoc (a b c : String) : a ++ b ++ c = a ++ (b ++ c) := by
  apply String.ext
  simp [str_data_append]

theorem str_append_empty (a : String) : a ++ "" = a := by
  apply String.ext
  simp [str_data_append]

theorem str_empty_append (a : String) : "" ++ a = a := by
  apply String.ext
  simp [str_data_append]

theorem mkRecord_question_num (i : Nat) (r : Option String) :
    (mkRecord i r).question_num = i + 1 := by
  cases r <;> rfl

theorem runSteps_nil (pages : Nat → Except String PageData) (clickOk : Nat → Bool)
    (st : RunState) : runSteps pages clickOk [] st = st := rfl

theorem runSteps_one (pages : Nat → Except String PageData) (clickOk : Nat → Bool)
    (i : Nat) (st : RunState) :
    runSteps pages clickOk [i] st
      = recordStep i st (extract_question_and_answers st.last_question_hash (pages i)) := rfl

theorem runSteps_cons₂ (pages : Nat → Except String PageData) (clickOk : Nat → Bool)
    (i j : Nat) (rest : List Nat) (st : RunState) :
    runSteps pages clickOk (i :: j :: rest) st
      = (if clickOk i then
          runSteps pages clickOk (j :: rest)
            (clickStep i (recordStep i st
              (extract_question_and_answers st.last_question_hash (pages i))))
        else
          clickStep i (recordStep i st
            (extract_question_and_answers st.last_question_hash (pages i)))) := rfl

theorem recordStep_results (i : Nat) (st : RunState)
    (er : Option String × Option String) :
    (recordStep i st er).ocr_results = st.ocr_results ++ [mkRecord i er.1] := rfl

theorem recordStep_trace (i : Nat) (st : RunState)
    (er : Option String × Option String) :
    (recordStep i st er).trace = st.trace ++ [Event.extractCall i] := rfl

theorem clickStep_results (i : Nat) (st : RunState) :
    (clickStep i st).ocr_results = st.ocr_results := rfl

theorem clickStep_trace (i : Nat) (st : RunState) :
    (clickStep i st).trace = st.trace ++ [Event.clickNext i] := rfl

theorem runSteps_map_num_allOk (pages : Nat → Except String PageData) (n : Nat) :
    ∀ (i : Nat) (st : RunState),
      ((runSteps pages (fun _ => true) (List.range' i n) st).ocr_results).map QARecord.question_num
        = st.ocr_results.map QARecord.question_num ++ List.range' (i + 1) n := by
  induction n with
  | zero => intro i st; simp [runSteps_nil]
  | succ m ih =>
    intro i st
    rw [List.range'_succ]
    cases m with
    | zero =>
      rw [List.range'_zero, runSteps_one, recordStep_results]
      simp [mkRecord_question_num, List.range'_succ]
    | succ k =>
      rw [List.range'_succ, runSteps_cons₂, if_pos rfl, ← List.range'_succ, ih]
      rw [clickStep_results, recordStep_results]
      simp [mkRecord_question_num, List.range'_succ, List.append_assoc]

/-- Claim C1: for every run of length `N` in which navigation always
succeeds, whatever the pattern of extraction failures (the page oracle is
arbitrary, so any mix of script errors, invalid pages and valid pages), the
ordered results collection has exactly `N` entries and their question numbers
are `1, 2, ..., N` in order: each iteration appends exactly one record, the
extracted text or the failure placeholder, numbered with the iteration's
1-based index. -/
theorem claim_C1 (N : Nat) (pages : Nat → Except String PageData) :
    ((run_automation N pages (fun _ => true)).ocr_results).length = N ∧
    ((run_automation N pages (fun _ => true)).ocr_results).map QARecord.question_num
      = List.range' 1 N := by
  have h := runSteps_map_num_allOk pages N 0 ⟨[], none, []⟩
  rw [← List.range_eq_range'] at h
  constructor
  · have hlen := congrArg List.length h
    simpa [run_automation] using hlen
  · simpa [run_automation] using h

theorem runSteps_clickFail (pages : Nat → Except String PageData)
    (clickOk : Nat → Bool) (j : Nat) (hf : clickOk j = false) (n : Nat) :
    ∀ (i : Nat) (st : RunState), i ≤ j → j + 1 < i + n →
      (∀ k, i ≤ k → k < j → clickOk k = true) →
      ((runSteps pages clickOk (List.range' i n) st).ocr_results).map QARecord.question_num
          = st.ocr_results.map QARecord.question_num ++ List.range' (i + 1) (j + 1 - i) ∧
      ((runSteps pages clickOk (List.range' i n) st).trace).filter Event.isClick
          = st.trace.filter Event.isClick ++ (List.range' i (j + 1 - i)).map Event.clickNext := by
  induction n with
  | zero => intro i st h1 h2 _; omega
  | succ m ih =>
    intro i st h1 h2 h3
    cases m with
    | zero => omega
    | succ k =>
      rw [List.range'_succ, List.range'_succ, runSteps_cons₂]
      by_cases hij : i = j
      · subst hij
        rw [if_neg (by simp [hf])]
        have hi1 : i + 1 - i = 1 := by omega
        constructor
        · rw [clickStep_results, recordStep_results, hi1]
          simp [mkRecord_question_num, List.range'_succ]
        · rw [clickStep_trace, recordStep_trace, hi1]
          simp [List.filter_append, Event.isClick, List.range'_succ]
      · have hilt : i < j := by omega
        rw [if_pos (h3 i (Nat.le_refl i) hilt), ← List.range'_succ]
        obtain ⟨hres, htr⟩ := ih (i + 1)
          (clickStep i (recordStep i st
            (extract_question_and_answers st.last_question_hash (pages i))))
          (by omega) (by omega) (fun a ha hb => h3 a (by omega) hb)
        have hj1 : j + 1 - i = (j + 1 - (i + 1)) + 1 := by omega
        constructor
        · rw [hres, clickStep_results, recordStep_results, hj1, List.range'_succ]
          simp [mkRecord_question_num, List.append_assoc]
        · rw [htr, clickStep_trace, recordStep_trace, hj1, List.range'_succ]
          simp [List.filter_append, Event.isClick, List.append_assoc]

theorem joinStrings_split {α : Type} (f : α → String) :
    ∀ (l : List α) (x : α), x ∈ l →
      ∃ p q, joinStrings (l.map f) = p ++ f x ++ q := by
  intro l
  induction l with
  | nil => intro x hx; cases hx
  | cons a rest ih =>
    intro x hx
    rcases List.mem_cons.mp hx with rfl | hx
    · exact ⟨"", joinStrings (rest.map f), by
        rw [List.map_cons, joinStrings, str_empty_append]⟩
    · obtain ⟨p, q, hp⟩ := ih x hx
      exact ⟨f a ++ p, q, by
        rw [List.map_cons, joinStrings, hp]
        simp [str_append_assoc]⟩

theorem save_results_mem (l : List QARecord) (r : QARecord) (h : r ∈ l) :
    ∃ p q, save_results l = p ++ recordBlock r ++ q := by
  obtain ⟨p, q, hp⟩ := joinStrings_split recordBlock l r h
  exact ⟨saveBanner ++ p, q, by
    rw [save_results, hp, str_append_assoc, str_append_assoc, str_append_assoc]⟩

/-- Claim C6: if the "next" click of iteration `j` fails while all earlier
clicks succeeded (and `j` is not the final iteration, where no click is
attempted), then the loop stops early: exactly the records `1 .. j+1` are
gathered, in order, no later index is ever backfilled; each of the clicks
`0 .. j` was attempted exactly once, so the failed click is not retried; and
the text `save_results` writes contains the block of every gathered record. -/
theorem claim_C6 (N j : Nat) (pages : Nat → Except String PageData)
    (clickOk : Nat → Bool) (hj : j + 1 < N) (hfail : clickOk j = false)
    (hpre : ∀ k, k < j → clickOk k = true) :
    ((run_automation N pages clickOk).ocr_results).map QARecord.question_num
        = List.range' 1 (j + 1) ∧
    ((run_automation N pages clickOk).trace).filter Event.isClick
        = (List.range (j + 1)).map Event.clickNext ∧
    ∀ r ∈ (run_automation N pages clickOk).ocr_results,
      ∃ p q, save_results ((run_automation N pages clickOk).ocr_results)
          = p ++ recordBlock r ++ q := by
  obtain ⟨hres, htr⟩ := runSteps_clickFail pages clickOk j hfail N 0 ⟨[], none, []⟩
    (by omega) (by omega) (fun k _ hk => hpre k hk)
  rw [← List.range_eq_range'] at hres htr
  refine ⟨?_, ?_, ?_⟩
  · simpa [run_automation, List.range_eq_range'] using hres
  · have : (List.range (j + 1)).map Event.clickNext
        = (List.range' 0 (j + 1)).map Event.clickNext := by
      rw [List.range_eq_range']
    rw [this]
    simpa [run_automation] using htr
  · intro r hr
    exact save_results_mem _ r hr

theorem runSteps_trace_shape (pages : Nat → Except String PageData)
    (clickOk : Nat → Bool) :
    ∀ (l : List Nat) (st : RunState) (e : Event),
      e ∈ (runSteps pages clickOk l st).trace →
      e ∈ st.trace ∨ (∃ i, e = Event.extractCall i) ∨ ∃ i, e = Event.clickNext i := by
  intro l
  induction l with
  | nil => intro st e he; exact Or.inl he
  | cons i rest ih =>
    intro st e he
    cases rest with
    | nil =>
      rw [runSteps_one, recordStep_trace] at he
      rcases List.mem_append.mp he with h | h
      · exact Or.inl h
      · simp at h
        exact Or.inr (Or.inl ⟨i, h⟩)
    | cons j rest' =>
      rw [runSteps_cons₂] at he
      by_cases hc : clickOk i = true
      · rw [if_pos hc] at he
        rcases ih _ e he with h | h | h
        · rw [clickStep_trace, recordStep_trace] at h
          rcases List.mem_append.mp h with h2 | h2
          · rcases List.mem_append.mp h2 with h3 | h3
            · exact Or.inl h3
            · simp at h3
              exact Or.inr (Or.inl ⟨i, h3⟩)
          · simp at h2
            exact Or.inr (Or.inr ⟨i, h2⟩)
        · exact Or.inr (Or.inl h)
        · exact Or.inr (Or.inr h)
      · rw [if_neg hc, clickStep_trace, recordStep_trace] at he
        rcases List.mem_append.mp he with h2 | h2
        · rcases List.mem_append.mp h2 with h3 | h3
          · exact Or.inl h3
          · simp at h3
            exact Or.inr (Or.inl ⟨i, h3⟩)
        · simp at h2
          exact Or.inr (Or.inr ⟨i, h2⟩)

theorem runSteps_results_extend (pages : Nat → Except String PageData)
    (clickOk : Nat → Bool) :
    ∀ (l : List Nat) (st : RunState),
      ∃ t, (runSteps pages clickOk l st).ocr_results = st.ocr_results ++ t := by
  intro l
  induction l with
  | nil => intro st; exact ⟨[], by simp [runSteps_nil]⟩
  | cons i rest ih =>
    intro st
    cases rest with
    | nil =>
      exact ⟨[mkRecord i (extract_question_and_answers st.last_question_hash (pages i)).1],
        by rw [runSteps_one, recordStep_results]⟩
    | cons j rest' =>
      rw [runSteps_cons₂]
      by_cases hc : clickOk i = true
      · rw [if_pos hc]
        obtain ⟨t, ht⟩ := ih (clickStep i (recordStep i st
          (extract_question_and_answers st.last_question_hash (pages i))))
        rw [clickStep_results, recordStep_results] at ht
        exact ⟨[mkRecord i (extract_question_and_answers st.last_question_hash (pages i)).1] ++ t,
          by rw [ht, List.append_assoc]⟩
      · rw [if_neg hc, clickStep_results, recordStep_results]
        exact ⟨_, rfl⟩

/-- Claim C2, counterexample: a run in which the structured extraction finds
nothing valid (the script returns an empty question and no answers) records
the FAILED placeholder directly; its complete trace is the single extraction
call — no screenshot capture and no OCR recognition is ever invoked before
(or after) recording the failure, contradicting the claimed fallback
ordering. -/
theorem claim_C2_counterexample :
    (run_automation 1 (fun _ => Except.ok ⟨"", []⟩) (fun _ => true)).ocr_results
        = [⟨1, placeholderText 1⟩] ∧
    (run_automation 1 (fun _ => Except.ok ⟨"", []⟩) (fun _ => true)).trace
        = [Event.extractCall 0] ∧
    Event.screenshotCapture ∉
      (run_automation 1 (fun _ => Except.ok ⟨"", []⟩) (fun _ => true)).trace ∧
    Event.ocrRecognize ∉
      (run_automation 1 (fun _ => Except.ok ⟨"", []⟩) (fun _ => true)).trace := by
  refine ⟨by decide, by decide, by decide, by decide⟩

/-- Claim C2, amended: when `extract_question_and_answers` yields no result
for an item, `run_automation` records the failure placeholder for that slot
immediately; no screenshot capture, image preprocessing or OCR recognition
is invoked at any point of any run (the fallback described by the claim does
not exist in the code). -/
theorem claim_C2 (N : Nat) (pages : Nat → Except String PageData)
    (clickOk : Nat → Bool) :
    Event.screenshotCapture ∉ (run_automation N pages clickOk).trace ∧
    Event.ocrRecognize ∉ (run_automation N pages clickOk).trace ∧
    (0 < N → (extract_question_and_answers none (pages 0)).1 = none →
      (run_automation N pages clickOk).ocr_results.head?
        = some ⟨1, placeholderText 1⟩) := by
  refine ⟨?_, ?_, ?_⟩
  · intro hmem
    rcases runSteps_trace_shape pages clickOk (List.range N) ⟨[], none, []⟩ _ hmem with
      h | ⟨i, h⟩ | ⟨i, h⟩ <;> simp_all
  · intro hmem
    rcases runSteps_trace_shape pages clickOk (List.range N) ⟨[], none, []⟩ _ hmem with
      h | ⟨i, h⟩ | ⟨i, h⟩ <;> simp_all
  · intro hN hnone
    cases N with
    | zero => omega
    | succ m =>
      have hrec : mkRecord 0 (extract_question_and_answers none
          ((fun _ => pages 0) 0)).1 = ⟨1, placeholderText 1⟩ := by
        rw [show ((fun _ => pages 0) 0) = pages 0 from rfl, hnone]
        rfl
      rw [run_automation, List.range_eq_range', List.range'_succ]
      cases m with
      | zero =>
        rw [List.range'_zero, runSteps_one, recordStep_results]
        rw [show (⟨[], none, []⟩ : RunState).last_question_hash = none from rfl]
        rw [show (⟨[], none, []⟩ : RunState).ocr_results = [] from rfl]
        rw [show mkRecord 0 (extract_question_and_answers none (pages 0)).1
            = ⟨1, placeholderText 1⟩ from by rw [hnone]; rfl]
        rfl
      | succ k =>
        rw [List.range'_succ, runSteps_cons₂]
        have hbase : (clickStep 0 (recordStep 0 ⟨[], none, []⟩
            (extract_question_and_answers none (pages 0)))).ocr_results
              = [⟨1, placeholderText 1⟩] := by
          rw [clickStep_results, recordStep_results]
          rw [show mkRecord 0 (extract_question_and_answers none (pages 0)).1
              = ⟨1, placeholderText 1⟩ from by rw [hnone]; rfl]
          rfl
        by_cases hc : clickOk 0 = true
        · rw [if_pos hc]
          obtain ⟨t, ht⟩ := runSteps_results_extend pages clickOk
            ((0 + 1) :: List.range' (0 + 1 + 1) k)
            (clickStep 0 (recordStep 0 ⟨[], none, []⟩
              (extract_question_and_answers none (pages 0))))
          rw [ht, hbase]
          rfl
        · rw [if_neg hc, hbase]
          rfl

/-- Claim C2 witness: instantiation of the amended claim on a one-item run
whose page evaluation raises. -/
theorem claim_C2_witness :
    (0 : Nat) < 1 ∧
    (extract_question_and_answers none (Except.error "boom")).1 = none ∧
    (run_automation 1 (fun _ => Except.error "boom") (fun _ => true)).ocr_results.head?
      = some ⟨1, placeholderText 1⟩ :=
  ⟨by decide, rfl,
    (claim_C2 1 (fun _ => Except.error "boom") (fun _ => true)).2.2 (by decide) rfl⟩

/-- Claim C6 witness: instantiation on a three-item run whose very first
"next" click fails. -/
theorem claim_C6_witness :
    (0 : Nat) + 1 < 3 ∧ wClicksFail 0 = false ∧
    (((run_automation 3 wPages wClicksFail).ocr_results).map QARecord.question_num
        = List.range' 1 (0 + 1) ∧
      ((run_automation 3 wPages wClicksFail).trace).filter Event.isClick
        = (List.range (0 + 1)).map Event.clickNext ∧
      ∀ r ∈ (run_automation 3 wPages wClicksFail).ocr_results,
        ∃ p q, save_results ((run_automation 3 wPages wClicksFail).ocr_results)
            = p ++ recordBlock r ++ q) :=
  ⟨by decide, rfl,
    claim_C6 3 0 wPages wClicksFail (by decide) rfl (fun k hk => absurd hk (Nat.not_lt_zero k))⟩

/-- Claim C10: `extract_question_and_answers` never lets an extraction error
escape to the loop: on an exception during in-page evaluation or result
handling it returns `None` with the duplicate-detection state untouched, and
in every case its result is either `None` or the formatted string of the
page's data. -/
theorem claim_C10 (lastHash : Option String) (page : Except String PageData) :
    (∀ e, page = Except.error e →
      extract_question_and_answers lastHash page = (none, lastHash)) ∧
    ((extract_question_and_answers lastHash page).1 = none ∨
      ∃ d, page = Except.ok d ∧
        (extract_question_and_answers lastHash page).1
          = some (formatResult d.question d.answers)) := by
  constructor
  · rintro e rfl
    rfl
  · cases page with
    | error e => exact Or.inl rfl
    | ok d =>
      show (extract_post lastHash d.question d.answers).1 = none ∨
        ∃ d2, (Except.ok d : Except String PageData) = Except.ok d2 ∧
          (extract_post lastHash d.question d.answers).1
            = some (formatResult d2.question d2.answers)
      rw [extract_post]
      split_ifs with h1 h2 h3
      · exact Or.inl rfl
      · exact Or.inl rfl
      · exact Or.inl rfl
      · exact Or.inr ⟨d, rfl, rfl⟩

/-- Claim C10 witness: the error case at a concrete input. -/
theorem claim_C10_witness :
    extract_question_and_answers (some "state") (Except.error "boom")
      = (none, some "state") :=
  (claim_C10 (some "state") (Except.error "boom")).1 "boom" rfl

/-- Claim C3: if `extract_question_and_answers` just accepted a page (same
stem), a second call on a page showing the same stem returns `None` instead
of re-emitting the item: either the second page's answers fail validation
(also `None`), or the stored hash of the stem's first 100 characters matches
and the duplicate gate fires. -/
theorem claim_C3 (lastHash : Option String) (q : String) (ans : List String)
    (r : String) (st2 : Option String)
    (h : extract_post lastHash q ans = (some r, st2)) (ans2 : List String) :
    (extract_post st2 q ans2).1 = none := by
  rw [extract_post] at h
  split_ifs at h with h1 h2 h3
  · exact absurd h (by simp)
  · exact absurd h (by simp)
  · exact absurd h (by simp)
  · have hst : st2 = some (stemKey q) := by
      simpa using (congrArg Prod.snd h).symm
    rw [extract_post]
    split_ifs <;> simp_all

/-- Claim C3 witness: a concrete accepted extraction followed by a repeat of
the same page. -/
theorem claim_C3_witness :
    extract_post none wQ wAns = (some (formatResult wQ wAns), some (stemKey wQ)) ∧
    (extract_post (some (stemKey wQ)) wQ wAns).1 = none :=
  ⟨by decide, claim_C3 none wQ wAns (formatResult wQ wAns) (some (stemKey wQ)) (by decide) wAns⟩

theorem collectAnswersAux_mem_gt (items : List String) :
    ∀ (acc : List String), (∀ a ∈ acc, 5 < a.length) →
      ∀ a ∈ collectAnswersAux items acc, 5 < a.length := by
  induction items with
  | nil => intro acc hacc a ha; exact hacc a ha
  | cons t rest ih =>
    intro acc hacc a ha
    rw [collectAnswersAux] at ha
    by_cases hc : 5 < (jsCleanAnswer t).length ∧ jsCleanAnswer t ∉ acc
    · rw [if_pos hc] at ha
      refine ih (acc ++ [jsCleanAnswer t]) ?_ a ha
      intro b hb
      rcases List.mem_append.mp hb with h | h
      · exact hacc b h
      · simp at h
        rw [h]
        exact hc.1
    · rw [if_neg hc] at ha
      exact ih acc hacc a ha

theorem collectAnswersAux_nodup (items : List String) :
    ∀ (acc : List String), acc.Nodup → (collectAnswersAux items acc).Nodup := by
  induction items with
  | nil => intro acc hacc; exact hacc
  | cons t rest ih =>
    intro acc hacc
    rw [collectAnswersAux]
    by_cases hc : 5 < (jsCleanAnswer t).length ∧ jsCleanAnswer t ∉ acc
    · rw [if_pos hc]
      refine ih (acc ++ [jsCleanAnswer t]) ?_
      simpa [List.nodup_append, hacc] using hc.2
    · rw [if_neg hc]
      exact ih acc hacc

theorem scriptAnswers_gt (items : List String) :
    ∀ a ∈ scriptAnswers items, 5 < a.length := fun a ha =>
  collectAnswersAux_mem_gt items [] (by simp) a (List.take_subset 5 _ ha)

theorem scriptAnswers_nodup (items : List String) : (scriptAnswers items).Nodup :=
  (List.take_sublist 5 _).nodup (collectAnswersAux_nodup items [] List.nodup_nil)

/-- Claim C4: whenever the post-processing returns a non-null result on a
page whose answer list was produced by the in-page script, the stem has at
least 20 characters and there are at least 2 answer options, which are
pairwise distinct (the script's seen-set removes duplicates). -/
theorem claim_C4 (lastHash : Option String) (q : String) (items : List String)
    (r : String) (st2 : Option String)
    (h : extract_post lastHash q (scriptAnswers items) = (some r, st2)) :
    20 ≤ q.length ∧ 2 ≤ (scriptAnswers items).length ∧ (scriptAnswers items).Nodup := by
  rw [extract_post] at h
  split_ifs at h with h1 h2 h3
  · exact absurd h (by simp)
  · exact absurd h (by simp)
  · exact absurd h (by simp)
  · push_neg at h1 h2
    exact ⟨by omega, by omega, scriptAnswers_nodup items⟩

/-- Claim C4 witness: a concrete accepted extraction whose answers come from
the in-page script. -/
theorem claim_C4_witness :
    extract_post none wQ (scriptAnswers wItems)
        = (some (formatResult wQ (scriptAnswers wItems)), some (stemKey wQ)) ∧
    (20 ≤ wQ.length ∧ 2 ≤ (scriptAnswers wItems).length ∧ (scriptAnswers wItems).Nodup) :=
  ⟨by decide,
    claim_C4 none wQ wItems (formatResult wQ (scriptAnswers wItems)) (some (stemKey wQ))
      (by decide)⟩

theorem addAnswerLines_eq (l : List String) :
    ∀ (idx : Nat) (acc : String), idx + l.length ≤ 5 →
      addAnswerLines idx l acc
        = acc ++ joinStrings (List.zipWith
            (fun L a => L ++ ". " ++ a ++ "\n") (answerLetters.drop idx) l) := by
  induction l with
  | nil =>
    intro idx acc _
    rw [addAnswerLines]
    cases h : answerLetters.drop idx <;>
      simp [joinStrings, str_append_empty]
  | cons a rest ih =>
    intro idx acc hle
    have hidx : idx < 5 := by
      simp only [List.length_cons] at hle
      omega
    have hdrop : answerLetters.drop idx
        = answerLetters.getD idx "" :: answerLetters.drop (idx + 1) := by
      interval_cases idx <;> rfl
    rw [addAnswerLines, ih (idx + 1) _ (by simp only [List.length_cons] at hle; omega), hdrop]
    rw [List.zipWith_cons_cons, joinStrings]
    simp [str_append_assoc]

/-- Claim C5: for every accepted extraction the formatted result is the stem,
a blank line, then each option on its own line labelled with its 1-indexed
letter in original order, the option list being truncated to at most 5
entries before formatting; in particular the stem "What is the capital of
France?" with options Paris, London, Berlin formats to the displayed
string. -/
theorem claim_C5 :
    (∀ (q : String) (ans : List String),
      formatResult q ans
        = q ++ "\n\n" ++ joinStrings (List.zipWith
            (fun L a => L ++ ". " ++ a ++ "\n") answerLetters (ans.take 5))) ∧
    formatResult "What is the capital of France?" ["Paris", "London", "Berlin"]
      = "What is the capital of France?\n\nA. Paris\nB. London\nC. Berlin\n" := by
  constructor
  · intro q ans
    have hlen : (ans.take 5).length ≤ 5 := by
      simp [List.length_take]
    have h := addAnswerLines_eq (ans.take 5) 0 (q ++ "\n\n") (by omega)
    simpa [formatResult] using h
  · decide

/-- Claim C8: the in-page script discards every answer option whose cleaned
text is 5 characters or fewer (its guard demands cleaned length strictly
greater than 5), so an extracted answer list never contains a legitimate
short option such as "Paris". -/
theorem claim_C8 (items : List String) (a : String) (ha : a ∈ scriptAnswers items) :
    5 < a.length ∧ a ≠ "Paris" := by
  have h5 := scriptAnswers_gt items a ha
  refine ⟨h5, ?_⟩
  intro he
  rw [he] at h5
  exact absurd h5 (by decide)

/-- Claim C8 witness: a kept six-character option, on a raw element list that
also offers the five-character option "Paris" (which is dropped). -/
theorem claim_C8_witness :
    ("London" ∈ scriptAnswers ["Ⓐ Paris", "Ⓑ London"]) ∧
    ("Paris" ∉ scriptAnswers ["Ⓐ Paris", "Ⓑ London"]) ∧
    (5 < "London".length ∧ "London" ≠ "Paris") :=
  ⟨by decide, by decide, claim_C8 ["Ⓐ Paris", "Ⓑ London"] "London" (by decide)⟩

set_option maxRecDepth 8000 in
/-- Claim C9: duplicate detection hashes only the first 100 characters of the
stem, so two distinct consecutive stems agreeing on their first 100
characters are treated as duplicates: after the first is accepted, the
second is rejected with `None` even though the content changed. -/
theorem claim_C9 :
    longStemA ≠ longStemB ∧
    stemKey longStemA = stemKey longStemB ∧
    extract_post none longStemA wAns
      = (some (formatResult longStemA wAns), some (stemKey longStemA)) ∧
    (extract_post (some (stemKey longStemA)) longStemB wAns).1 = none := by
  refine ⟨by decide, by decide, by decide, by decide⟩

namespace TextNormalizer

theorem word_not_blank {c : Char} (h : isWordChar c = true) : isBlankChar c = false := by
  cases hb : isBlankChar c
  · rfl
  · exfalso
    have hcs : c = ' ' ∨ c = '\t' := by
      simpa [isBlankChar] using hb
    rcases hcs with rfl | rfl <;> exact absurd h (by decide)

theorem word_not_bar {c : Char} (h : isWordChar c = true) : (c == '|') = false := by
  cases hb : c == '|'
  · rfl
  · have hc : c = '|' := by simpa using hb
    subst hc
    exact absurd h (by decide)

theorem headSafe_of_not_blank {bad : Char → Char → Bool} {c : Char} (l : List Char)
    (hleft : ∀ d, bad c d = false) : HeadSafe bad c l := by
  cases l with
  | nil => trivial
  | cons d r => exact hleft d

theorem pairsOK_tail {bad : Char → Char → Bool} {c : Char} {l : List Char}
    (h : PairsOK bad (c :: l)) : PairsOK bad l := by
  cases l with
  | nil => trivial
  | cons d r => exact h.2

theorem pairsOK_cons_iff {bad : Char → Char → Bool} {c : Char} {l : List Char} :
    PairsOK bad (c :: l) ↔ HeadSafe bad c l ∧ PairsOK bad l := by
  cases l with
  | nil => simp [PairsOK, HeadSafe]
  | cons d r => exact Iff.rfl

theorem pairsOK_append_left {bad : Char → Char → Bool} :
    ∀ {l₁ l₂ : List Char}, PairsOK bad (l₁ ++ l₂) → PairsOK bad l₁ := by
  intro l₁
  induction l₁ with
  | nil => intro l₂ _; trivial
  | cons c rest ih =>
    intro l₂ h
    cases rest with
    | nil => trivial
    | cons d r =>
      exact ⟨h.1, ih (pairsOK_tail h)⟩

theorem pairsOK_dropWhile {bad : Char → Char → Bool} (p : Char → Bool) :
    ∀ {l : List Char}, PairsOK bad l → PairsOK bad (l.dropWhile p) := by
  intro l
  induction l with
  | nil => intro _; trivial
  | cons c rest ih =>
    intro h
    rw [List.dropWhile_cons]
    split_ifs with hp
    · exact ih (pairsOK_tail h)
    · exact h

theorem dropTrail_pre : ∀ l : List Char, ∃ t, dropTrail l ++ t = l := by
  intro l
  induction l with
  | nil => exact ⟨[], rfl⟩
  | cons c rest ih =>
    obtain ⟨t, ht⟩ := ih
    cases hr : dropTrail rest with
    | nil =>
      rw [dropTrail, hr]
      split_ifs with hc
      · exact ⟨c :: rest, rfl⟩
      · rw [hr] at ht
        exact ⟨t, by simpa using congrArg (c :: ·) ht⟩
    | cons d r =>
      rw [dropTrail, hr]
      rw [hr] at ht
      exact ⟨t, by simpa using congrArg (c :: ·) ht⟩

theorem mem_dropTrail {c : Char} {l : List Char} (h : c ∈ dropTrail l) : c ∈ l := by
  obtain ⟨t, ht⟩ := dropTrail_pre l
  rw [← ht]
  exact List.mem_append_left t h

theorem pairsOK_dropTrail {bad : Char → Char → Bool} {l : List Char}
    (h : PairsOK bad l) : PairsOK bad (dropTrail l) := by
  obtain ⟨t, ht⟩ := dropTrail_pre l
  rw [← ht] at h
  exact pairsOK_append_left h

theorem lastNotBlank_dropTrail : ∀ l : List Char, LastNotBlank (dropTrail l) := by
  intro l
  induction l with
  | nil => trivial
  | cons c rest ih =>
    cases hr : dropTrail rest with
    | nil =>
      rw [dropTrail, hr]
      split_ifs with hc
      · trivial
      · show isBlankChar c = false
        simpa using hc
    | cons d r =>
      rw [dropTrail, hr]
      rw [hr] at ih
      exact ih

theorem dropTrail_id : ∀ l : List Char, LastNotBlank l → dropTrail l = l := by
  intro l
  induction l with
  | nil => intro _; rfl
  | cons c rest ih =>
    intro h
    cases rest with
    | nil =>
      have hc : isBlankChar c = false := h
      simp [dropTrail, hc]
    | cons d r =>
      have h2 : LastNotBlank (d :: r) := h
      rw [dropTrail, ih h2]

theorem headWord_dropTrail {l : List Char} (h : HeadWord l) : HeadWord (dropTrail l) := by
  cases l with
  | nil => trivial
  | cons c rest =>
    have hw : isWordChar c = true := h
    cases hr : dropTrail rest with
    | nil =>
      rw [dropTrail, hr, if_neg (by simp [word_not_blank hw])]
      exact hw
    | cons d r =>
      rw [dropTrail, hr]
      exact hw

theorem dropWhile_id_of_headNotBlank {l : List Char} (h : HeadNotBlank l) :
    l.dropWhile isBlankChar = l := by
  cases l with
  | nil => rfl
  | cons c rest =>
    have hc : isBlankChar c = false := h
    rw [List.dropWhile_cons, if_neg (by simp [hc])]

theorem trimLine_id {l : List Char} (h1 : HeadNotBlank l) (h2 : LastNotBlank l) :
    trimLine l = l := by
  rw [trimLine, dropWhile_id_of_headNotBlank h1, dropTrail_id l h2]

theorem headNotBlank_of_headWord {l : List Char} (h : HeadWord l) : HeadNotBlank l := by
  cases l with
  | nil => trivial
  | cons c rest => exact word_not_blank h

theorem collapseGo_cons_notBlank {c : Char} {rest : List Char} (b : Bool)
    (h : isBlankChar c = false) :
    collapseGo b (c :: rest) = c :: collapseGo false rest := by
  rw [collapseGo, if_neg (by simp [h])]

theorem headNotBlank_collapseGo_true : ∀ l : List Char, HeadNotBlank (collapseGo true l) := by
  intro l
  induction l with
  | nil => trivial
  | cons c rest ih =>
    by_cases hc : isBlankChar c = true
    · rw [collapseGo, if_pos hc, if_pos rfl]
      exact ih
    · rw [collapseGo_cons_notBlank true (by simpa using hc)]
      exact (by simpa using hc)

theorem collapseGo_true_eq_false {l : List Char} (h : HeadNotBlank l) :
    collapseGo true l = collapseGo false l := by
  cases l with
  | nil => rfl
  | cons c rest =>
    have hc : isBlankChar c = false := h
    rw [collapseGo_cons_notBlank true hc, collapseGo_cons_notBlank false hc]

theorem blankIsSpace_collapseGo : ∀ (l : List Char) (b : Bool),
    BlankIsSpace (collapseGo b l) := by
  intro l
  induction l with
  | nil => intro b c hc; cases hc
  | cons c rest ih =>
    intro b x hx hblank
    by_cases hc : isBlankChar c = true
    · rw [collapseGo, if_pos hc] at hx
      cases b with
      | true =>
        rw [if_pos rfl] at hx
        exact ih true x hx hblank
      | false =>
        rw [if_neg (by simp)] at hx
        rcases List.mem_cons.mp hx with rfl | hx
        · rfl
        · exact ih true x hx hblank
    · rw [collapseGo_cons_notBlank b (by simpa using hc)] at hx
      rcases List.mem_cons.mp hx with rfl | hx
      · exact absurd hblank (by simpa using hc)
      · exact ih false x hx hblank

theorem pairsWW_collapseGo : ∀ (l : List Char) (b : Bool),
    PairsOK badWW (collapseGo b l) := by
  intro l
  induction l with
  | nil => intro b; trivial
  | cons c rest ih =>
    intro b
    by_cases hc : isBlankChar c = true
    · rw [collapseGo, if_pos hc]
      cases b with
      | true => rw [if_pos rfl]; exact ih true
      | false =>
        rw [if_neg (by simp)]
        refine pairsOK_cons_iff.mpr ⟨?_, ih true⟩
        cases hcol : collapseGo true rest with
        | nil => trivial
        | cons d r =>
          have hd : isBlankChar d = false := by
            have := headNotBlank_collapseGo_true rest
            rw [hcol] at this
            exact this
          simp [HeadSafe, badWW, hd]
    · rw [collapseGo_cons_notBlank b (by simpa using hc)]
      refine pairsOK_cons_iff.mpr ⟨?_, ih false⟩
      exact headSafe_of_not_blank _ (fun d => by simp [badWW, hc])

theorem headWord_collapseWS {l : List Char} (h : HeadWord l) : HeadWord (collapseWS l) := by
  cases l with
  | nil => trivial
  | cons c rest =>
    have hw : isWordChar c = true := h
    rw [collapseWS, collapseGo_cons_notBlank false (word_not_blank hw)]
    exact hw

theorem collapseWS_id {l : List Char} (h1 : BlankIsSpace l) (h2 : PairsOK badWW l) :
    collapseWS l = l := by
  rw [collapseWS]
  induction l with
  | nil => rfl
  | cons c rest ih =>
    by_cases hc : isBlankChar c = true
    · have hsp : c = ' ' := h1 c (List.mem_cons_self c rest) hc
      rw [collapseGo, if_pos hc, if_neg (by simp)]
      have hrest : HeadNotBlank rest := by
        cases rest with
        | nil => trivial
        | cons d r =>
          have hbad : badWW c d = false := h2.1
          have : isBlankChar d = false := by
            simpa [badWW, hc] using hbad
          exact this
      rw [collapseGo_true_eq_false hrest,
        ih (fun x hx hb => h1 x (List.mem_cons_of_mem c hx) hb) (pairsOK_tail h2), hsp]
    · rw [collapseGo_cons_notBlank false (by simpa using hc),
        ih (fun x hx hb => h1 x (List.mem_cons_of_mem c hx) hb) (pairsOK_tail h2)]

theorem mem_collapseGo : ∀ (l : List Char) (b : Bool) (c : Char),
    c ∈ collapseGo b l → c ∈ l ∨ c = ' ' := by
  intro l
  induction l with
  | nil => intro b c hc; cases hc
  | cons x rest ih =>
    intro b c hc
    by_cases hx : isBlankChar x = true
    · rw [collapseGo, if_pos hx] at hc
      cases b with
      | true =>
        rw [if_pos rfl] at hc
        rcases ih true c hc with h | h
        · exact Or.inl (List.mem_cons_of_mem x h)
        · exact Or.inr h
      | false =>
        rw [if_neg (by simp)] at hc
        rcases List.mem_cons.mp hc with rfl | hc
        · exact Or.inr rfl
        · rcases ih true c hc with h | h
          · exact Or.inl (List.mem_cons_of_mem x h)
          · exact Or.inr h
    · rw [collapseGo_cons_notBlank b (by simpa using hx)] at hc
      rcases List.mem_cons.mp hc with rfl | hc
      · exact Or.inl (List.mem_cons_self c rest)
      · rcases ih false c hc with h | h
        · exact Or.inl (List.mem_cons_of_mem x h)
        · exact Or.inr h

theorem dropWSBP_cons_notBlank {d : Char} (r : List Char) (hd : isBlankChar d = false) :
    dropWSBeforePunct (d :: r) = d :: dropWSBeforePunct r := by
  cases r with
  | nil => rfl
  | cons e r2 =>
    rw [dropWSBeforePunct, if_neg (by simp [hd])]

theorem mem_dropWSBP : ∀ (l : List Char) (c : Char), c ∈ dropWSBeforePunct l → c ∈ l := by
  intro l
  induction l with
  | nil => intro c hc; cases hc
  | cons x rest ih =>
    intro c hc
    cases rest with
    | nil => exact hc
    | cons d r =>
      rw [dropWSBeforePunct] at hc
      split_ifs at hc with hg
      · exact List.mem_cons_of_mem x (ih c hc)
      · rcases List.mem_cons.mp hc with rfl | hc
        · exact List.mem_cons_self c _
        · exact List.mem_cons_of_mem x (ih c hc)

theorem pairsWP_dropWSBP : ∀ l : List Char, PairsOK badWW l →
    PairsOK badWP (dropWSBeforePunct l) := by
  intro l
  induction l with
  | nil => intro _; trivial
  | cons x rest ih =>
    intro h
    cases rest with
    | nil => trivial
    | cons d r =>
      rw [dropWSBeforePunct]
      split_ifs with hg
      · exact ih (pairsOK_tail h)
      · refine pairsOK_cons_iff.mpr ⟨?_, ih (pairsOK_tail h)⟩
        by_cases hx : isBlankChar x = true
        · have hd : isBlankChar d = false := by
            simpa [badWW, hx] using h.1
          rw [dropWSBP_cons_notBlank r hd]
          show badWP x d = false
          simpa [badWP] using hg
        · refine headSafe_of_not_blank _ (fun e => ?_)
          simp [badWP, (by simpa using hx : isBlankChar x = false)]

theorem pairsWW_dropWSBP : ∀ l : List Char, PairsOK badWW l →
    PairsOK badWW (dropWSBeforePunct l) := by
  intro l
  induction l with
  | nil => intro _; trivial
  | cons x rest ih =>
    intro h
    cases rest with
    | nil => trivial
    | cons d r =>
      rw [dropWSBeforePunct]
      split_ifs with hg
      · exact ih (pairsOK_tail h)
      · refine pairsOK_cons_iff.mpr ⟨?_, ih (pairsOK_tail h)⟩
        by_cases hx : isBlankChar x = true
        · have hd : isBlankChar d = false := by
            simpa [badWW, hx] using h.1
          rw [dropWSBP_cons_notBlank r hd]
          show badWW x d = false
          simp [badWW, hd]
        · refine headSafe_of_not_blank _ (fun e => ?_)
          simp [badWW, (by simpa using hx : isBlankChar x = false)]

theorem headWord_dropWSBP {l : List Char} (h : HeadWord l) :
    HeadWord (dropWSBeforePunct l) := by
  cases l with
  | nil => trivial
  | cons c rest =>
    have hw : isWordChar c = true := h
    rw [dropWSBP_cons_notBlank rest (word_not_blank hw)]
    exact hw

theorem dropWSBP_id : ∀ l : List Char, PairsOK badWP l → dropWSBeforePunct l = l := by
  intro l
  induction l with
  | nil => intro _; rfl
  | cons x rest ih =>
    intro h
    cases rest with
    | nil => rfl
    | cons d r =>
      have hg : badWP x d = false := h.1
      rw [dropWSBeforePunct, if_neg (by simp [badWP] at hg ⊢; exact hg),
        ih (pairsOK_tail h)]

theorem barToI_cons (c : Char) (l : List Char) :
    barToI (c :: l) = (if (c == '|') && headLowerB l then 'I' else c) :: barToI l := by
  cases l with
  | nil => simp [barToI, headLowerB]
  | cons d r => rfl

theorem blank_barSubChar (c : Char) (g : Bool) :
    isBlankChar (if (c == '|') && g then 'I' else c) = isBlankChar c := by
  split_ifs with h
  · have hc : c = '|' := by
      have h2 := (Bool.and_eq_true _ _).mp h
      simpa using h2.1
    subst hc
    decide
  · rfl

theorem punct_barSubChar (c : Char) (g : Bool) :
    isPunctChar (if (c == '|') && g then 'I' else c) = isPunctChar c := by
  split_ifs with h
  · have hc : c = '|' := by
      have h2 := (Bool.and_eq_true _ _).mp h
      simpa using h2.1
    subst hc
    decide
  · rfl

theorem mem_barToI : ∀ (l : List Char) (c : Char), c ∈ barToI l → c ∈ l ∨ c = 'I' := by
  intro l
  induction l with
  | nil => intro c hc; cases hc
  | cons x rest ih =>
    intro c hc
    rw [barToI_cons] at hc
    rcases List.mem_cons.mp hc with rfl | hc
    · by_cases hg : ((x == '|') && headLowerB rest) = true
      · exact Or.inr (by rw [if_pos hg])
      · left
        rw [if_neg hg]
        exact List.mem_cons_self x rest
    · rcases ih c hc with h | h
      · exact Or.inl (List.mem_cons_of_mem x h)
      · exact Or.inr h

theorem pairsBar_barToI : ∀ l : List Char, PairsOK badBar (barToI l) := by
  intro l
  induction l with
  | nil => trivial
  | cons c rest ih =>
    rw [barToI_cons]
    refine pairsOK_cons_iff.mpr ⟨?_, ih⟩
    cases rest with
    | nil => trivial
    | cons d r =>
      rw [barToI_cons]
      show badBar (if (c == '|') && headLowerB (d :: r) then 'I' else c)
        (if (d == '|') && headLowerB r then 'I' else d) = false
      by_cases hg : ((c == '|') && headLowerB (d :: r)) = true
      · rw [if_pos hg]
        simp [badBar, show ('I' == '|') = false from by decide]
      · rw [if_neg hg]
        by_cases hcb : (c == '|') = true
        · have hdl : d.isLower = false := by
            have h2 : headLowerB (d :: r) = false := by
              cases h3 : headLowerB (d :: r)
              · rfl
              · exact absurd (by rw [hcb, h3]; rfl) hg
            simpa [headLowerB] using h2
          have hlow : (if (d == '|') && headLowerB r then 'I' else d).isLower = false := by
            split_ifs with h4
            · decide
            · exact hdl
          rw [badBar, hlow]
          simp
        · simp [badBar, (by simpa using hcb : (c == '|') = false)]

theorem pairsWW_barToI : ∀ l : List Char, PairsOK badWW l → PairsOK badWW (barToI l) := by
  intro l
  induction l with
  | nil => intro _; trivial
  | cons c rest ih =>
    intro h
    rw [barToI_cons]
    refine pairsOK_cons_iff.mpr ⟨?_, ih (pairsOK_tail h)⟩
    cases rest with
    | nil => trivial
    | cons d r =>
      rw [barToI_cons]
      show badWW (if (c == '|') && headLowerB (d :: r) then 'I' else c)
        (if (d == '|') && headLowerB r then 'I' else d) = false
      rw [badWW, blank_barSubChar, blank_barSubChar]
      exact h.1

theorem pairsWP_barToI : ∀ l : List Char, PairsOK badWP l → PairsOK badWP (barToI l) := by
  intro l
  induction l with
  | nil => intro _; trivial
  | cons c rest ih =>
    intro h
    rw [barToI_cons]
    refine pairsOK_cons_iff.mpr ⟨?_, ih (pairsOK_tail h)⟩
    cases rest with
    | nil => trivial
    | cons d r =>
      rw [barToI_cons]
      show badWP (if (c == '|') && headLowerB (d :: r) then 'I' else c)
        (if (d == '|') && headLowerB r then 'I' else d) = false
      rw [badWP, blank_barSubChar, punct_barSubChar]
      exact h.1

theorem headWord_barToI {l : List Char} (h : HeadWord l) : HeadWord (barToI l) := by
  cases l with
  | nil => trivial
  | cons c rest =>
    have hw : isWordChar c = true := h
    rw [barToI_cons, if_neg (by simp [word_not_bar hw])]
    exact hw

theorem barToI_id : ∀ l : List Char, PairsOK badBar l → barToI l = l := by
  intro l
  induction l with
  | nil => intro _; rfl
  | cons c rest ih =>
    intro h
    cases rest with
    | nil => rfl
    | cons d r =>
      rw [barToI_cons, if_neg (show ¬(((c == '|') && headLowerB (d :: r)) = true) by
          have h1 : badBar c d = false := h.1
          simp only [headLowerB]
          intro hcon
          rw [badBar] at h1
          rw [h1] at hcon
          cases hcon),
        ih (pairsOK_tail h)]

theorem stripBullets_id {l : List Char} (h : NoBullet l) : stripBullets l = l :=
  List.filter_eq_self.mpr (fun c hc => by simp [h c hc])

theorem headWord_dropLead : ∀ l : List Char, HeadWord (dropLead l) := by
  intro l
  induction l with
  | nil => trivial
  | cons c rest ih =>
    rw [dropLead, List.dropWhile_cons]
    split_ifs with hc
    · exact ih
    · show isWordChar c = true
      simpa using hc

theorem dropLead_id {l : List Char} (h : HeadWord l) : dropLead l = l := by
  cases l with
  | nil => rfl
  | cons c rest =>
    have hw : isWordChar c = true := h
    rw [dropLead, List.dropWhile_cons, if_neg (by simp [hw])]

theorem mem_dropLead {c : Char} {l : List Char} (h : c ∈ dropLead l) : c ∈ l :=
  (List.dropWhile_sublist _).subset h

theorem mem_trimLine {c : Char} {l : List Char} (h : c ∈ trimLine l) : c ∈ l := by
  rw [trimLine] at h
  exact (List.dropWhile_sublist _).subset (mem_dropTrail h)

theorem mem_cleanLine_toCollapse {c : Char} {l : List Char} (h : c ∈ cleanLine l) :
    c ∈ collapseWS (dropLead (stripBullets l)) ∨ c = 'I' := by
  rw [cleanLine] at h
  have h2 := mem_trimLine h
  rcases mem_barToI _ c h2 with h3 | h3
  · exact Or.inl (mem_dropWSBP _ c h3)
  · exact Or.inr h3

theorem mem_cleanLine_toStrip {c : Char} {l : List Char} (h : c ∈ cleanLine l) :
    c ∈ stripBullets l ∨ c = ' ' ∨ c = 'I' := by
  rcases mem_cleanLine_toCollapse h with h2 | h2
  · rw [collapseWS] at h2
    rcases mem_collapseGo _ false c h2 with h3 | h3
    · exact Or.inl (mem_dropLead h3)
    · exact Or.inr (Or.inl h3)
  · exact Or.inr (Or.inr h2)

theorem noBullet_cleanLine (l : List Char) : NoBullet (cleanLine l) := by
  intro c hc
  rcases mem_cleanLine_toStrip hc with h | h | h
  · have := List.of_mem_filter h
    simpa using this
  · rw [h]; decide
  · rw [h]; decide

theorem blankIsSpace_cleanLine (l : List Char) : BlankIsSpace (cleanLine l) := by
  intro c hc hblank
  rcases mem_cleanLine_toCollapse hc with h | h
  · rw [collapseWS] at h
    exact blankIsSpace_collapseGo _ false c h hblank
  · rw [h] at hblank
    exact absurd hblank (by decide)

theorem headWord_trimLine {l : List Char} (h : HeadWord l) : HeadWord (trimLine l) := by
  rw [trimLine, dropWhile_id_of_headNotBlank (headNotBlank_of_headWord h)]
  exact headWord_dropTrail h

theorem headWord_cleanLine (l : List Char) : HeadWord (cleanLine l) := by
  rw [cleanLine]
  exact headWord_trimLine (headWord_barToI (headWord_dropWSBP
    (headWord_collapseWS (headWord_dropLead (stripBullets l)))))

theorem pairsWW_cleanLine (l : List Char) : PairsOK badWW (cleanLine l) := by
  rw [cleanLine, trimLine]
  exact pairsOK_dropTrail (pairsOK_dropWhile _ (pairsWW_barToI _
    (pairsWW_dropWSBP _ (pairsWW_collapseGo _ false))))

theorem pairsWP_cleanLine (l : List Char) : PairsOK badWP (cleanLine l) := by
  rw [cleanLine, trimLine]
  exact pairsOK_dropTrail (pairsOK_dropWhile _ (pairsWP_barToI _
    (pairsWP_dropWSBP _ (pairsWW_collapseGo _ false))))

theorem pairsBar_cleanLine (l : List Char) : PairsOK badBar (cleanLine l) := by
  rw [cleanLine, trimLine]
  exact pairsOK_dropTrail (pairsOK_dropWhile _ (pairsBar_barToI _))

theorem lastNotBlank_cleanLine (l : List Char) : LastNotBlank (cleanLine l) := by
  rw [cleanLine, trimLine]
  exact lastNotBlank_dropTrail _

theorem cleanLine_fixed {m : List Char} (h1 : NoBullet m) (h2 : HeadWord m)
    (h3 : BlankIsSpace m) (h4 : PairsOK badWW m) (h5 : PairsOK badWP m)
    (h6 : PairsOK badBar m) (h7 : LastNotBlank m) : cleanLine m = m := by
  rw [cleanLine, stripBullets_id h1, dropLead_id h2, collapseWS_id h3 h4,
    dropWSBP_id m h5, barToI_id m h6,
    trimLine_id (headNotBlank_of_headWord h2) h7]

theorem cleanLine_idem (l : List Char) : cleanLine (cleanLine l) = cleanLine l :=
  cleanLine_fixed (noBullet_cleanLine l) (headWord_cleanLine l)
    (blankIsSpace_cleanLine l) (pairsWW_cleanLine l) (pairsWP_cleanLine l)
    (pairsBar_cleanLine l) (lastNotBlank_cleanLine l)

theorem splitLines_no_newline : ∀ t : List Char, ∀ p ∈ splitLines t, '\n' ∉ p := by
  intro t
  induction t with
  | nil =>
    intro p hp
    simp [splitLines] at hp
    simp [hp]
  | cons c rest ih =>
    intro p hp
    by_cases hc : c = '\n'
    · rw [splitLines, if_pos hc] at hp
      rcases List.mem_cons.mp hp with rfl | hp
      · simp
      · exact ih p hp
    · rw [splitLines, if_neg hc] at hp
      cases hsp : splitLines rest with
      | nil =>
        rw [hsp] at hp
        simp at hp
        subst hp
        simp [hc]
        intro hfalse
        exact hc hfalse.symm
      | cons l ls =>
        rw [hsp] at hp
        rcases List.mem_cons.mp hp with rfl | hp
        · intro hmem
          rcases List.mem_cons.mp hmem with heq | hmem
          · exact hc heq.symm
          · exact ih l (hsp ▸ List.mem_cons_self l ls) hmem
        · exact ih p (hsp ▸ List.mem_cons_of_mem l hp)

theorem splitLines_single : ∀ l : List Char, '\n' ∉ l → splitLines l = [l] := by
  intro l
  induction l with
  | nil => intro _; rfl
  | cons c rest ih =>
    intro h
    have hc : ¬(c = '\n') := fun he => h (he ▸ List.mem_cons_self c rest)
    have hrest : '\n' ∉ rest := fun hm => h (List.mem_cons_of_mem c hm)
    rw [splitLines, if_neg hc, ih hrest]

theorem splitLines_append : ∀ l : List Char, '\n' ∉ l → ∀ t : List Char,
    splitLines (l ++ '\n' :: t) = l :: splitLines t := by
  intro l
  induction l with
  | nil => intro _ t; rw [List.nil_append, splitLines, if_pos rfl]
  | cons c l2 ih =>
    intro h t
    have hc : ¬(c = '\n') := fun he => h (he ▸ List.mem_cons_self c l2)
    have hl2 : '\n' ∉ l2 := fun hm => h (List.mem_cons_of_mem c hm)
    rw [List.cons_append, splitLines, if_neg hc, ih hl2 t]

theorem splitLines_joinLines : ∀ parts : List (List Char), parts ≠ [] →
    (∀ p ∈ parts, '\n' ∉ p) → splitLines (joinLines parts) = parts := by
  intro parts
  induction parts with
  | nil => intro h _; exact absurd rfl h
  | cons p rest ih =>
    intro _ hnn
    cases rest with
    | nil =>
      rw [joinLines]
      exact splitLines_single p (hnn p (List.mem_cons_self p []))
    | cons q ps =>
      rw [joinLines, splitLines_append p (hnn p (List.mem_cons_self p _)),
        ih (List.cons_ne_nil q ps) (fun r hr => hnn r (List.mem_cons_of_mem p hr))]
      exact fun h => absurd h (List.cons_ne_nil q ps)

theorem newline_not_mem_cleanLine {l : List Char} (h : '\n' ∉ l) :
    '\n' ∉ cleanLine l := by
  intro hmem
  rcases mem_cleanLine_toStrip hmem with h2 | h2 | h2
  · exact h (List.mem_of_mem_filter h2)
  · exact absurd h2 (by decide)
  · exact absurd h2 (by decide)

theorem mapSelf {α : Type} (f : α → α) : ∀ l : List α, (∀ x ∈ l, f x = x) →
    l.map f = l := by
  intro l
  induction l with
  | nil => intro _; rfl
  | cons a rest ih =>
    intro h
    rw [List.map_cons, h a (List.mem_cons_self a rest),
      ih (fun x hx => h x (List.mem_cons_of_mem a hx))]

theorem cleanChars_nil : cleanChars [] = [] := rfl

theorem cleanChars_idem (t : List Char) : cleanChars (cleanChars t) = cleanChars t := by
  by_cases hnil : ((splitLines t).map cleanLine).filter keepLine = []
  · have h0 : cleanChars t = [] := by rw [cleanChars, hnil]; rfl
    rw [h0, cleanChars_nil]
  · have hnn : ∀ p ∈ ((splitLines t).map cleanLine).filter keepLine, '\n' ∉ p := by
      intro p hp
      obtain ⟨q, hq, rfl⟩ := List.mem_map.mp (List.mem_of_mem_filter hp)
      exact newline_not_mem_cleanLine (splitLines_no_newline t q hq)
    have hidem : ∀ p ∈ ((splitLines t).map cleanLine).filter keepLine,
        cleanLine p = p := by
      intro p hp
      obtain ⟨q, _, rfl⟩ := List.mem_map.mp (List.mem_of_mem_filter hp)
      exact cleanLine_idem q
    calc cleanChars (cleanChars t)
        = joinLines (((splitLines (joinLines (((splitLines t).map cleanLine).filter
            keepLine))).map cleanLine).filter keepLine) := rfl
      _ = joinLines (((((splitLines t).map cleanLine).filter keepLine).map
            cleanLine).filter keepLine) := by
          rw [splitLines_joinLines _ hnil hnn]
      _ = joinLines ((((splitLines t).map cleanLine).filter keepLine).filter
            keepLine) := by
          rw [mapSelf cleanLine _ hidem]
      _ = joinLines (((splitLines t).map cleanLine).filter keepLine) := by
          rw [List.filter_eq_self.mpr (fun p hp => List.of_mem_filter hp)]
      _ = cleanChars t := rfl

end TextNormalizer

/-- Claim C7: the text normalizer is idempotent: for every input string,
cleaning a second time changes nothing (the cleanup is a pure function of
its argument). -/
theorem claim_C7 (x : String) :
    TextNormalizer.clean (TextNormalizer.clean x) = TextNormalizer.clean x := by
  apply String.ext
  exact TextNormalizer.cleanChars_idem x.data
